import Mathlib

/-!
Shallow embedding of the v1engine_WebApp backtesting core
(`core/DataHandler.py`, `core/ExecutionHandler.py`, `core/portfolio.py`,
`backtest.py`) and proofs about it.

Modelling conventions:
* Dates (pandas timestamps) are modelled as natural numbers; the trading-day
  calendar is a list of dates.
* Python floats are modelled as exact rationals `ℚ`; share counts and order
  quantities (Python `int`) are modelled as `ℤ`.
* Python dicts keyed by ticker are modelled as association lists
  `List (Ticker × _)`; `defaultdict` read access is a lookup with a default,
  write access replaces the entry in place or appends it.
* `Portfolio.trade_history` is a `defaultdict(list)` of per-ticker record
  lists to which records are only ever appended; it is modelled as the flat
  list of `(ticker, record)` appends in order.
-/

namespace V1Engine

abbrev Ticker := String

/-- One row of a ticker's daily dataframe, as consumed by the engine
(`DataHandler.get_latest_data`); only the `high`, `low`, `close` columns are
read by the core, the other columns are omitted. -/
structure Bar where
  high : ℚ
  low : ℚ
  close : ℚ
deriving DecidableEq, Repr

/-- `DataHandler` (core/DataHandler.py): the ticker universe and, for each
ticker and date, the bar stored for that date if the CSV has that row
(`self.data[ticker].loc[date]`, `KeyError` modelled as `none`). -/
structure DataHandler where
  tickers : List Ticker
  bars : Ticker → Nat → Option Bar

/-- `DataHandler.get_latest_data` (core/DataHandler.py:86-101): the dict of
per-ticker rows available on `d`, iterating the ticker universe and skipping
tickers without a row for `d`. -/
def get_latest_data (dh : DataHandler) (d : Nat) : List (Ticker × Bar) :=
  dh.tickers.filterMap (fun t => (dh.bars t d).map (fun b => (t, b)))

inductive Side | buy | sell
deriving DecidableEq, Repr

/-- An order quantity: a concrete integer or the sentinel `'ALL'`. -/
inductive OrderQty | all | num (n : ℤ)
deriving DecidableEq, Repr

/-- An order dict `{'type', 'ticker', 'quantity'}` as produced by
`Portfolio.generate_exit_orders` / `generate_rebalancing_orders`. -/
structure Order where
  side : Side
  ticker : Ticker
  qty : OrderQty
deriving DecidableEq, Repr

/-- A fill event dict `{'type', 'ticker', 'quantity', 'price', 'commission'}`
as returned by `ExecutionHandler.execute_order`. -/
structure Fill where
  side : Side
  ticker : Ticker
  quantity : ℤ
  price : ℚ
  commission : ℚ
deriving DecidableEq, Repr

/-- One per-ticker entry of `Portfolio.positions`
(core/portfolio.py:20): `{'shares', 'purchase_price', 'entry_date'}`. -/
structure Position where
  shares : ℤ
  purchase_price : ℚ
  entry_date : Option Nat
deriving DecidableEq, Repr

/-- The `defaultdict` default `{'shares': 0, 'purchase_price': 0.0,
'entry_date': None}`. -/
def Position.dflt : Position := ⟨0, 0, none⟩

abbrev Positions := List (Ticker × Position)

/-- Read access `self.positions[ticker]` of the `defaultdict`. -/
def getPos (ps : Positions) (t : Ticker) : Position :=
  (ps.lookup t).getD Position.dflt

/-- Write access: replace the entry for `t` in place, or append it. -/
def setPos : Positions → Ticker → Position → Positions
  | [], t, v => [(t, v)]
  | (u, w) :: rest, t, v =>
      if u = t then (t, v) :: rest else (u, w) :: setPos rest t v

/-- `ExecutionHandler` configuration (core/ExecutionHandler.py:12-24): the
precomputed trading-day calendar and the cost parameters. -/
structure ExecCfg where
  trading_days : List Nat
  commission : ℚ
  slippage_percent : ℚ

/-- `ExecutionHandler._get_next_trading_day` (core/ExecutionHandler.py:27-46):
`searchsorted(date, side='right')` on the sorted calendar is the number of
calendar entries `≤ date`; the element at that index, when in bounds, is the
next trading day, else `None`. -/
def nextTradingDay (days : List Nat) (d : Nat) : Option Nat :=
  days[days.countP (fun x => decide (x ≤ d))]?

/-- The typical price `(high + low + close) / 3`
(core/ExecutionHandler.py:79). -/
def typicalPrice (b : Bar) : ℚ := (b.high + b.low + b.close) / 3

/-- The part of `ExecutionHandler.execute_order` after the execution day has
been found (core/ExecutionHandler.py:67-108): bar lookup, zero-price
rejection, slippage, `'ALL'` resolution against current positions,
non-positive-quantity rejection, and the fill event. -/
def fillAtDay (dh : DataHandler) (cfg : ExecCfg) (order : Order) (ed : Nat)
    (positions : Positions) : Option Fill :=
  match (get_latest_data dh ed).lookup order.ticker with
  | none => none
  | some bar =>
      if typicalPrice bar = 0 then none
      else
        let price :=
          match order.side with
          | .buy => typicalPrice bar * (1 + cfg.slippage_percent)
          | .sell => typicalPrice bar * (1 - cfg.slippage_percent)
        let qty : ℤ :=
          match order.qty with
          | .all => (getPos positions order.ticker).shares
          | .num n => n
        if qty ≤ 0 then none
        else some ⟨order.side, order.ticker, qty, price, cfg.commission⟩

/-- `ExecutionHandler.execute_order` (core/ExecutionHandler.py:48-108). -/
def execute_order (dh : DataHandler) (cfg : ExecCfg) (order : Order) (d : Nat)
    (positions : Positions) : Option Fill :=
  match nextTradingDay cfg.trading_days d with
  | none => none
  | some ed => fillAtDay dh cfg order ed positions

theorem nextTradingDay_spec (days : List Nat) (d : Nat)
    (h : days.Sorted (· < ·)) :
    (nextTradingDay days d = none → ∀ x ∈ days, x ≤ d) ∧
    (∀ ed, nextTradingDay days d = some ed →
      ed ∈ days ∧ d < ed ∧ ∀ x ∈ days, d < x → ed ≤ x) := by
  induction days with
  | nil => simp [nextTradingDay]
  | cons a l ih =>
      rw [List.sorted_cons] at h
      obtain ⟨ha, hl⟩ := h
      obtain ⟨ih1, ih2⟩ := ih hl
      by_cases had : a ≤ d
      · have hcount : (a :: l).countP (fun x => decide (x ≤ d)) =
            l.countP (fun x => decide (x ≤ d)) + 1 := by
          rw [List.countP_cons_of_pos]
          simpa using had
        constructor
        · intro hnone x hx
          rw [nextTradingDay, hcount] at hnone
          simp only [List.getElem?_cons_succ] at hnone
          rcases List.mem_cons.mp hx with rfl | hx'
          · exact had
          · exact ih1 hnone x hx'
        · intro ed hed
          rw [nextTradingDay, hcount] at hed
          simp only [List.getElem?_cons_succ] at hed
          obtain ⟨hmem, hlt, hmin⟩ := ih2 ed hed
          refine ⟨List.mem_cons_of_mem _ hmem, hlt, ?_⟩
          intro x hx hdx
          rcases List.mem_cons.mp hx with rfl | hx'
          · omega
          · exact hmin x hx' hdx
      · have hcount : (a :: l).countP (fun x => decide (x ≤ d)) = 0 := by
          rw [List.countP_eq_zero]
          intro x hx
          rcases List.mem_cons.mp hx with rfl | hx'
          · simpa using had
          · have := ha x hx'
            simp only [decide_eq_true_eq]
            omega
        constructor
        · intro hnone
          rw [nextTradingDay, hcount] at hnone
          simp at hnone
        · intro ed hed
          rw [nextTradingDay, hcount] at hed
          simp only [List.getElem?_cons_zero, Option.some.injEq] at hed
          subst hed
          refine ⟨List.mem_cons_self _ _, by omega, ?_⟩
          intro x hx _
          rcases List.mem_cons.mp hx with rfl | hx'
          · exact le_refl _
          · exact le_of_lt (ha x hx')

/-- One closed-trade record appended to `Portfolio.trade_history`
(core/portfolio.py:173-178). -/
structure TradeRecord where
  pnl : ℚ
  entry_date : Nat
  exit_date : Nat
deriving DecidableEq, Repr

/-- The mutable state of `Portfolio` (core/portfolio.py:11-29) that the
simulation reads and writes. -/
structure Portfolio where
  cash : ℚ
  positions : Positions
  total_value : ℚ
  realized_pnl : ℚ
  trade_history : List (Ticker × TradeRecord)
deriving DecidableEq, Repr

/-- `Portfolio.update_value` (core/portfolio.py:31-39): mark-to-market.
Sums `shares × close` over positions with positive shares whose ticker has a
bar on `d`, and stores `cash + market_value` in `total_value`. -/
def update_value (dh : DataHandler) (p : Portfolio) (d : Nat) : Portfolio :=
  let latest := get_latest_data dh d
  let market_value := (p.positions.map (fun tp =>
      if tp.2.shares > 0 then
        match latest.lookup tp.1 with
        | some bar => (tp.2.shares : ℚ) * bar.close
        | none => 0
      else 0)).sum
  { p with total_value := p.cash + market_value }

/-- `Portfolio.update_positions_from_fill` (core/portfolio.py:150-187). -/
def update_positions_from_fill (p : Portfolio) (f : Fill) (d : Nat) :
    Portfolio :=
  let trade_cost : ℚ := (f.quantity : ℚ) * f.price
  let p1 :=
    match f.side with
    | .buy =>
        let pos := getPos p.positions f.ticker
        let current_value := (pos.shares : ℚ) * pos.purchase_price
        let new_total_shares := pos.shares + f.quantity
        let new_pp : ℚ :=
          if new_total_shares > 0 then
            (current_value + trade_cost) / (new_total_shares : ℚ)
          else 0
        { p with
            positions := setPos p.positions f.ticker
              ⟨new_total_shares, new_pp, some d⟩,
            cash := p.cash - trade_cost }
    | .sell =>
        let pos := getPos p.positions f.ticker
        let profit_loss := (f.price - pos.purchase_price) * (f.quantity : ℚ)
        let th :=
          match pos.entry_date with
          | some e =>
              p.trade_history ++ [(f.ticker, TradeRecord.mk profit_loss e d)]
          | none => p.trade_history
        let new_shares := pos.shares - f.quantity
        let pos' : Position :=
          if new_shares = 0 then ⟨0, 0, none⟩
          else ⟨new_shares, pos.purchase_price, pos.entry_date⟩
        { p with
            realized_pnl := p.realized_pnl + profit_loss,
            trade_history := th,
            cash := p.cash + trade_cost,
            positions := setPos p.positions f.ticker pos' }
  { p1 with cash := p1.cash - f.commission }

theorem getPos_setPos_self (ps : Positions) (t : Ticker) (v : Position) :
    getPos (setPos ps t v) t = v := by
  induction ps with
  | nil => simp [getPos, setPos, List.lookup]
  | cons hd tl ih =>
      obtain ⟨u, w⟩ := hd
      by_cases h : u = t
      · subst h
        simp [setPos, getPos, List.lookup]
      · have hne : (t == u) = false := by
          simp [Ne.symm h]
        simp [setPos, h, getPos, List.lookup, hne] at ih ⊢
        exact ih

theorem getPos_setPos_ne (ps : Positions) (t t' : Ticker) (v : Position)
    (h : t' ≠ t) : getPos (setPos ps t v) t' = getPos ps t' := by
  induction ps with
  | nil =>
      have hne : (t' == t) = false := by simp [h]
      simp [getPos, setPos, List.lookup, hne]
  | cons hd tl ih =>
      obtain ⟨u, w⟩ := hd
      by_cases hu : u = t
      · subst hu
        have hne : (t' == u) = false := by simp [h]
        simp [setPos, getPos, List.lookup, hne]
      · simp [setPos, hu, getPos, List.lookup]
        by_cases htu : t' = u
        · subst htu
          simp
        · have hne : (t' == u) = false := by simp [htu]
          simp [hne]
          simpa [getPos] using ih

/-- Unfolding of `update_positions_from_fill` for a BUY fill
(core/portfolio.py:159-166,187), stated as an explicit record. -/
theorem update_buy (p : Portfolio) (t : Ticker) (q : ℤ) (pr c : ℚ) (d : Nat) :
    update_positions_from_fill p ⟨.buy, t, q, pr, c⟩ d =
      { cash := p.cash - (q : ℚ) * pr - c,
        positions := setPos p.positions t
          ⟨(getPos p.positions t).shares + q,
           if (getPos p.positions t).shares + q > 0 then
             (((getPos p.positions t).shares : ℚ) *
                 (getPos p.positions t).purchase_price + (q : ℚ) * pr) /
               (((getPos p.positions t).shares + q : ℤ) : ℚ)
           else 0,
           some d⟩,
        total_value := p.total_value,
        realized_pnl := p.realized_pnl,
        trade_history := p.trade_history } := rfl

/-- Unfolding of `update_positions_from_fill` for a SELL fill
(core/portfolio.py:167-187), stated as an explicit record. -/
theorem update_sell (p : Portfolio) (t : Ticker) (q : ℤ) (pr c : ℚ) (d : Nat) :
    update_positions_from_fill p ⟨.sell, t, q, pr, c⟩ d =
      { cash := p.cash + (q : ℚ) * pr - c,
        positions := setPos p.positions t
          (if (getPos p.positions t).shares - q = 0 then ⟨0, 0, none⟩
           else ⟨(getPos p.positions t).shares - q,
                 (getPos p.positions t).purchase_price,
                 (getPos p.positions t).entry_date⟩),
        total_value := p.total_value,
        realized_pnl := p.realized_pnl +
          (pr - (getPos p.positions t).purchase_price) * (q : ℚ),
        trade_history :=
          match (getPos p.positions t).entry_date with
          | some e => p.trade_history ++
              [(t, TradeRecord.mk
                  ((pr - (getPos p.positions t).purchase_price) * (q : ℚ)) e d)]
          | none => p.trade_history } := rfl

/-- Modelled from the spec's invariant wording: the mark-to-market
contribution of one position entry on day `d` is `shares × close` when shares
are held and a close is available for that date, and `0` otherwise (a held
instrument with no bar is skipped). -/
def specContribution (dh : DataHandler) (d : Nat) (tp : Ticker × Position) :
    ℚ :=
  match (get_latest_data dh d).lookup tp.1 with
  | some bar => if tp.2.shares > 0 then (tp.2.shares : ℚ) * bar.close else 0
  | none => 0

/-- Claim C2: after every mark-to-market call, `total_value` equals cash plus
the sum over all positions of the spec's contribution (`shares × close` for
held instruments with a bar on `d`, `0` for held instruments without one);
cash and positions are untouched by the call. -/
theorem update_value_invariant (dh : DataHandler) (p : Portfolio) (d : Nat) :
    (update_value dh p d).total_value =
      (update_value dh p d).cash +
        (p.positions.map (specContribution dh d)).sum ∧
    (update_value dh p d).cash = p.cash ∧
    (update_value dh p d).positions = p.positions := by
  refine ⟨?_, rfl, rfl⟩
  simp only [update_value]
  have hmap : ∀ tp : Ticker × Position,
      (if tp.2.shares > 0 then
        match (get_latest_data dh d).lookup tp.1 with
        | some bar => (tp.2.shares : ℚ) * bar.close
        | none => 0
      else 0) = specContribution dh d tp := by
    intro tp
    simp only [specContribution]
    rcases h : (get_latest_data dh d).lookup tp.1 with _ | bar <;>
      by_cases hs : tp.2.shares > 0 <;> simp [h, hs]
  rw [List.map_congr_left (fun tp _ => hmap tp)]

/-- A two-share position in `"a"` with cost basis `10` entered on day `0`. -/
def partialSellPortfolio : Portfolio :=
  ⟨1000, [("a", ⟨2, 10, some 0⟩)], 1000, 0, []⟩

/-- Counterexample to claim C3 as stated: a SELL fill of 1 share out of 2 at
price 11 leaves the position open with 1 share, yet a trade-history record is
appended — `update_positions_from_fill` (core/portfolio.py:172-178) appends
on every SELL whose position has a set entry date, not only on sells that
close the position. -/
theorem partial_sell_appends_trade_history :
    (getPos (update_positions_from_fill partialSellPortfolio
        ⟨.sell, "a", 1, 11, 0⟩ 5).positions "a").shares = 1 ∧
    (update_positions_from_fill partialSellPortfolio
        ⟨.sell, "a", 1, 11, 0⟩ 5).trade_history =
      [("a", ⟨1, 0, 5⟩)] := by
  have hpos : getPos partialSellPortfolio.positions "a" = ⟨2, 10, some 0⟩ :=
    rfl
  constructor
  · rw [update_sell, hpos]
    have : (2 : ℤ) - 1 ≠ 0 := by decide
    rw [if_neg this, getPos_setPos_self]
    decide
  · rw [update_sell, hpos]
    simp only [partialSellPortfolio]
    norm_num

/-- Claim C3 (amended): a SELL fill applied by `update_positions_from_fill`
appends a `{pnl, entry_date, exit_date}` record exactly when the position's
entry date is non-null — whether or not the sell closes the position, so a
partial sell also appends a record; a closing sell (resulting shares exactly
0) appends at most one record and resets the position's cost basis and entry
date, while a non-closing sell keeps basis and entry date. -/
theorem sell_fill_trade_history (p : Portfolio) (t : Ticker) (q : ℤ)
    (pr c : ℚ) (d : Nat) :
    ((getPos p.positions t).entry_date = none →
      (update_positions_from_fill p ⟨.sell, t, q, pr, c⟩ d).trade_history =
        p.trade_history) ∧
    (∀ e, (getPos p.positions t).entry_date = some e →
      (update_positions_from_fill p ⟨.sell, t, q, pr, c⟩ d).trade_history =
        p.trade_history ++
          [(t, ⟨(pr - (getPos p.positions t).purchase_price) * (q : ℚ),
              e, d⟩)]) ∧
    ((getPos p.positions t).shares - q = 0 →
      getPos (update_positions_from_fill p ⟨.sell, t, q, pr, c⟩ d).positions
        t = ⟨0, 0, none⟩) ∧
    ((getPos p.positions t).shares - q ≠ 0 →
      getPos (update_positions_from_fill p ⟨.sell, t, q, pr, c⟩ d).positions
        t = ⟨(getPos p.positions t).shares - q,
             (getPos p.positions t).purchase_price,
             (getPos p.positions t).entry_date⟩) := by
  refine ⟨?_, ?_, ?_, ?_⟩
  · intro h
    rw [update_sell]
    simp [h]
  · intro e h
    rw [update_sell]
    simp [h]
  · intro h
    rw [update_sell]
    simp only [if_pos h]
    exact getPos_setPos_self _ _ _
  · intro h
    rw [update_sell]
    simp only [if_neg h]
    exact getPos_setPos_self _ _ _

/-- Witness for the amended C3 at a concrete closing sell: selling both
shares of `partialSellPortfolio` at price 12 appends the record with pnl
`(12 − 10) × 2 = 4` and resets the position. -/
theorem sell_fill_trade_history_witness :
    (update_positions_from_fill partialSellPortfolio
        ⟨.sell, "a", 2, 12, 0⟩ 7).trade_history =
      partialSellPortfolio.trade_history ++
        [("a", ⟨(12 - (getPos partialSellPortfolio.positions "a").purchase_price) * ((2 : ℤ) : ℚ), 0, 7⟩)] ∧
    getPos (update_positions_from_fill partialSellPortfolio
        ⟨.sell, "a", 2, 12, 0⟩ 7).positions "a" = ⟨0, 0, none⟩ :=
  ⟨(sell_fill_trade_history partialSellPortfolio "a" 2 12 0 7).2.1 0
      (by decide),
   (sell_fill_trade_history partialSellPortfolio "a" 2 12 0 7).2.2.1
      (by decide)⟩

/-- Claim C7: buying `q1` at `pr1` then `q2` at `pr2` from a flat position
yields average cost basis `(q1·pr1 + q2·pr2)/(q1 + q2)`; selling all
`q1 + q2` shares at `s` then raises `realized_pnl` by exactly
`(s − basis)·(q1 + q2)`, appends exactly one trade-history record carrying
that P&L, and resets the position, while the three commissions affect only
cash. -/
theorem cost_basis_round_trip (p : Portfolio) (t : Ticker) (q1 q2 : ℤ)
    (pr1 pr2 s c1 c2 c3 : ℚ) (d1 d2 d3 : Nat)
    (h0 : getPos p.positions t = Position.dflt)
    (hq1 : 0 < q1) (hq2 : 0 < q2) :
    (getPos (update_positions_from_fill
        (update_positions_from_fill p ⟨.buy, t, q1, pr1, c1⟩ d1)
        ⟨.buy, t, q2, pr2, c2⟩ d2).positions t).purchase_price =
      ((q1 : ℚ) * pr1 + (q2 : ℚ) * pr2) / ((q1 : ℚ) + (q2 : ℚ)) ∧
    (update_positions_from_fill (update_positions_from_fill
        (update_positions_from_fill p ⟨.buy, t, q1, pr1, c1⟩ d1)
        ⟨.buy, t, q2, pr2, c2⟩ d2)
        ⟨.sell, t, q1 + q2, s, c3⟩ d3).realized_pnl =
      p.realized_pnl +
        (s - ((q1 : ℚ) * pr1 + (q2 : ℚ) * pr2) / ((q1 : ℚ) + (q2 : ℚ))) *
          ((q1 : ℚ) + (q2 : ℚ)) ∧
    (update_positions_from_fill (update_positions_from_fill
        (update_positions_from_fill p ⟨.buy, t, q1, pr1, c1⟩ d1)
        ⟨.buy, t, q2, pr2, c2⟩ d2)
        ⟨.sell, t, q1 + q2, s, c3⟩ d3).trade_history =
      p.trade_history ++
        [(t, ⟨(s - ((q1 : ℚ) * pr1 + (q2 : ℚ) * pr2) /
              ((q1 : ℚ) + (q2 : ℚ))) * ((q1 : ℚ) + (q2 : ℚ)), d2, d3⟩)] ∧
    (update_positions_from_fill (update_positions_from_fill
        (update_positions_from_fill p ⟨.buy, t, q1, pr1, c1⟩ d1)
        ⟨.buy, t, q2, pr2, c2⟩ d2)
        ⟨.sell, t, q1 + q2, s, c3⟩ d3).cash =
      p.cash - (q1 : ℚ) * pr1 - (q2 : ℚ) * pr2 +
        ((q1 : ℚ) + (q2 : ℚ)) * s - c1 - c2 - c3 ∧
    getPos (update_positions_from_fill (update_positions_from_fill
        (update_positions_from_fill p ⟨.buy, t, q1, pr1, c1⟩ d1)
        ⟨.buy, t, q2, pr2, c2⟩ d2)
        ⟨.sell, t, q1 + q2, s, c3⟩ d3).positions t = Position.dflt := by
  have hq1q : (q1 : ℚ) ≠ 0 := by
    exact_mod_cast hq1.ne'
  have hq12q : (q1 : ℚ) + (q2 : ℚ) ≠ 0 := by
    have h : (0 : ℚ) < (q1 : ℚ) + (q2 : ℚ) := by exact_mod_cast add_pos hq1 hq2
    exact h.ne'
  have hpos1 :
      getPos (update_positions_from_fill p ⟨.buy, t, q1, pr1, c1⟩ d1).positions
        t = ⟨q1, pr1, some d1⟩ := by
    rw [update_buy, getPos_setPos_self, h0]
    simp only [Position.dflt, Position.mk.injEq]
    rw [if_pos (by omega : (0 : ℤ) + q1 > 0)]
    refine ⟨by omega, ?_, trivial⟩
    push_cast
    field_simp
  have hpos2 :
      getPos (update_positions_from_fill
        (update_positions_from_fill p ⟨.buy, t, q1, pr1, c1⟩ d1)
        ⟨.buy, t, q2, pr2, c2⟩ d2).positions t =
      ⟨q1 + q2,
       ((q1 : ℚ) * pr1 + (q2 : ℚ) * pr2) / ((q1 : ℚ) + (q2 : ℚ)),
       some d2⟩ := by
    rw [update_buy, getPos_setPos_self, hpos1]
    simp only [Position.mk.injEq]
    rw [if_pos (by omega : q1 + q2 > 0)]
    refine ⟨trivial, ?_, trivial⟩
    push_cast
    ring_nf
  refine ⟨by rw [hpos2], ?_, ?_, ?_, ?_⟩
  · rw [update_sell, hpos2, update_buy, update_buy]
    push_cast
    ring_nf
  · rw [update_sell, hpos2, update_buy, update_buy]
    simp only
    congr 3
    push_cast
    ring_nf
  · rw [update_sell, hpos2, update_buy, update_buy]
    push_cast
    ring_nf
  · rw [update_sell, hpos2]
    rw [if_pos (by omega : q1 + q2 - (q1 + q2) = 0), getPos_setPos_self]
    rfl

/-- Dense descending rank (pandas `rank(method='dense', ascending=False)`,
backtest.py:300): one plus the number of distinct values in `l` strictly
greater than `s`; tied values share a rank and ranks have no gaps. -/
def denseRank (l : List ℚ) (s : ℚ) : ℕ :=
  1 + ((l.filter (fun x => decide (s < x))).dedup).length

/-- Arithmetic mean of a list of rationals (`ranks.mean()`). -/
def meanQ (l : List ℚ) : ℚ := l.sum / l.length

/-- Sample variance with Bessel's correction (`ranks.std()` squared — the
pandas `Series.std` default is `ddof=1`, dividing by `n − 1`). -/
def sampleVarQ (l : List ℚ) : ℚ :=
  (l.map (fun r => (r - meanQ l) ^ 2)).sum / ((l.length : ℚ) - 1)

/-- Population variance, dividing by `n` — what the spec's words describe. -/
def popVarQ (l : List ℚ) : ℚ :=
  (l.map (fun r => (r - meanQ l) ^ 2)).sum / (l.length : ℚ)

/-- `daily_scores[daily_scores > 0]` (backtest.py:295): the candidates of one
provider on one day. -/
def buySignals (daily : List (Ticker × ℚ)) : List (Ticker × ℚ) :=
  daily.filter (fun ts => decide (0 < ts.2))

/-- The dense ranks of the candidates, in candidate order
(backtest.py:300). -/
def ranksOf (daily : List (Ticker × ℚ)) : List ℚ :=
  ((buySignals daily).map Prod.snd).map
    (fun s => (denseRank ((buySignals daily).map Prod.snd) s : ℚ))

/-- The rank-Z-score normalization of one provider's daily scores
(backtest.py:295-312): with ≤ 2 candidates every candidate gets 1.0; else
with `std = ranks.std()` (sample standard deviation, `ddof=1`) below `1e-8`
every candidate gets 1.0; otherwise each candidate gets
`(mean_rank − rank) / std`. -/
noncomputable def normalizeScores (daily : List (Ticker × ℚ)) :
    List (Ticker × ℝ) :=
  if (ranksOf daily).length ≤ 2 then
    (buySignals daily).map (fun ts => (ts.1, (1 : ℝ)))
  else
    let mean_rank := meanQ (ranksOf daily)
    let std_dev_rank : ℝ := Real.sqrt ((sampleVarQ (ranksOf daily) : ℚ) : ℝ)
    if std_dev_rank < 1e-8 then
      (buySignals daily).map (fun ts => (ts.1, (1 : ℝ)))
    else
      (buySignals daily).map (fun ts =>
        (ts.1, ((mean_rank : ℝ) -
            (denseRank ((buySignals daily).map Prod.snd) ts.2 : ℝ)) /
          std_dev_rank))

/-- Modelled from the spec's words for claim C4: the normalized score
`(mean_rank − rank) / std_rank` with `std_rank` the population standard
deviation of the ranks (dividing by `n`, not `n − 1`). -/
noncomputable def specNormalizedScore (daily : List (Ticker × ℚ)) (s : ℚ) :
    ℝ :=
  ((meanQ (ranksOf daily) : ℝ) -
      (denseRank ((buySignals daily).map Prod.snd) s : ℝ)) /
    Real.sqrt ((popVarQ (ranksOf daily) : ℚ) : ℝ)

/-- Three candidates with scores 30, 20, 10 — dense ranks 1, 2, 3. -/
def threeCandidates : List (Ticker × ℚ) := [("a", 30), ("b", 20), ("c", 10)]

theorem buySignals_threeCandidates :
    buySignals threeCandidates = threeCandidates := rfl

theorem ranksOf_threeCandidates : ranksOf threeCandidates = [1, 2, 3] := rfl

/-- Counterexample to claim C4 as stated: for candidates scored 30, 20, 10
(dense ranks 1, 2, 3, mean 2), the code's normalized score of the top
candidate is `(2 − 1)/ranks.std() = 1` because pandas `Series.std` divides
by `n − 1`, while the spec's population-standard-deviation formula yields
`(2 − 1)/√(2/3) ≠ 1`. -/
theorem normalized_score_not_population_std :
    normalizeScores threeCandidates = [("a", 1), ("b", 0), ("c", -1)] ∧
    specNormalizedScore threeCandidates 30 ≠ 1 := by
  have hsv : sampleVarQ (ranksOf threeCandidates) = 1 := by
    rw [ranksOf_threeCandidates]
    norm_num [sampleVarQ, meanQ]
  have hpv : popVarQ (ranksOf threeCandidates) = 2 / 3 := by
    rw [ranksOf_threeCandidates]
    norm_num [popVarQ, meanQ]
  have hmean : meanQ (ranksOf threeCandidates) = 2 := by
    rw [ranksOf_threeCandidates]
    norm_num [meanQ]
  have hrank : denseRank ((buySignals threeCandidates).map Prod.snd) 30 = 1 :=
    rfl
  have hrank2 : denseRank ((buySignals threeCandidates).map Prod.snd) 20 =
      2 := rfl
  have hrank3 : denseRank ((buySignals threeCandidates).map Prod.snd) 10 =
      3 := rfl
  have hsqrt1 : Real.sqrt ((sampleVarQ (ranksOf threeCandidates) : ℚ) : ℝ) =
      1 := by
    rw [hsv]
    push_cast
    exact Real.sqrt_one
  have hmap : ∀ f : Ticker × ℚ → Ticker × ℝ,
      threeCandidates.map f = [f ("a", 30), f ("b", 20), f ("c", 10)] :=
    fun f => rfl
  constructor
  · simp only [normalizeScores]
    rw [if_neg (by rw [ranksOf_threeCandidates]; norm_num)]
    rw [hsqrt1]
    rw [if_neg (by norm_num)]
    rw [buySignals_threeCandidates, hmap]
    simp only
    rw [hmean]
    rw [show denseRank (threeCandidates.map Prod.snd) 30 = 1 from rfl]
    rw [show denseRank (threeCandidates.map Prod.snd) 20 = 2 from rfl]
    rw [show denseRank (threeCandidates.map Prod.snd) 10 = 3 from rfl]
    norm_num
  · simp only [specNormalizedScore]
    rw [hmean, hrank, hpv]
    have hpos : (0 : ℝ) < Real.sqrt (((2 / 3 : ℚ)) : ℝ) := by
      apply Real.sqrt_pos.mpr
      push_cast
      norm_num
    have hne : Real.sqrt (((2 / 3 : ℚ)) : ℝ) ≠ 1 := by
      rw [Ne, Real.sqrt_eq_one]
      push_cast
      norm_num
    intro hcontra
    rw [div_eq_iff hpos.ne', one_mul] at hcontra
    apply hne
    rw [← hcontra]
    norm_num

/-- Claim C4 (amended): with more than 2 candidates and rank standard
deviation at least `1e-8`, every candidate's normalized score equals
`(mean_rank − rank) / std_rank` where `std_rank` is the SAMPLE standard
deviation of the dense ranks (dividing by `n − 1`, the pandas `Series.std`
default), not the population standard deviation. -/
theorem normalized_score_formula (daily : List (Ticker × ℚ))
    (h2 : ¬ (ranksOf daily).length ≤ 2)
    (hstd : ¬ Real.sqrt ((sampleVarQ (ranksOf daily) : ℚ) : ℝ) < 1e-8) :
    normalizeScores daily = (buySignals daily).map (fun ts =>
      (ts.1, ((meanQ (ranksOf daily) : ℝ) -
          (denseRank ((buySignals daily).map Prod.snd) ts.2 : ℝ)) /
        Real.sqrt ((sampleVarQ (ranksOf daily) : ℚ) : ℝ))) := by
  simp only [normalizeScores]
  rw [if_neg h2, if_neg hstd]

/-- Witness for the amended C4 at the concrete three-candidate day: both
hypotheses hold there (3 candidates, sample std 1 ≥ 1e-8). -/
theorem normalized_score_formula_witness :
    normalizeScores threeCandidates = (buySignals threeCandidates).map
      (fun ts => (ts.1, ((meanQ (ranksOf threeCandidates) : ℝ) -
          (denseRank ((buySignals threeCandidates).map Prod.snd) ts.2 : ℝ)) /
        Real.sqrt ((sampleVarQ (ranksOf threeCandidates) : ℚ) : ℝ))) :=
  normalized_score_formula threeCandidates
    (by rw [ranksOf_threeCandidates]; norm_num)
    (by
      have hsv : sampleVarQ (ranksOf threeCandidates) = 1 := by
        rw [ranksOf_threeCandidates]
        norm_num [sampleVarQ, meanQ]
      rw [hsv]
      push_cast
      rw [Real.sqrt_one]
      norm_num)

/-- Exit-rule configuration: a `stop_loss`/`take_profit` config of type
`'percentage'` is modelled as `some` of its value divided by 100 (`sl_pct` /
`tp_pct`, core/portfolio.py:71,81); `none` models a missing or
non-percentage config. -/
structure ExitCfg where
  stop_loss_pct : Option ℚ
  take_profit_pct : Option ℚ

/-- `Portfolio.generate_exit_orders` (core/portfolio.py:57-90): for every
position with positive shares and a bar on `d`, emit a SELL-`'ALL'` order
when the percentage stop-loss fires (day low ≤ basis × (1 − sl_pct)), else
when the percentage take-profit fires (day high ≥ basis × (1 + tp_pct));
at most one order per position (`continue`). -/
def generate_exit_orders (dh : DataHandler) (p : Portfolio) (d : Nat)
    (ecfg : ExitCfg) : List Order :=
  p.positions.filterMap (fun tp : Ticker × Position =>
    if tp.2.shares ≤ 0 then none
    else
      match (get_latest_data dh d).lookup tp.1 with
      | none => none
      | some bar =>
          let slFired :=
            match ecfg.stop_loss_pct with
            | some sl => decide (0 < sl) &&
                decide (bar.low ≤ tp.2.purchase_price * (1 - sl))
            | none => false
          let tpFired :=
            match ecfg.take_profit_pct with
            | some tpq => decide (0 < tpq) &&
                decide (tp.2.purchase_price * (1 + tpq) ≤ bar.high)
            | none => false
          if slFired then some ⟨.sell, tp.1, .all⟩
          else if tpFired then some ⟨.sell, tp.1, .all⟩
          else none)

/-- Python `int()` applied to an exact rational: truncation toward zero
(`Int.tdiv` is Lean's toward-zero division, and `num/den` is in lowest
terms). -/
def ratTrunc (q : ℚ) : ℤ := Int.tdiv q.num (q.den : ℤ)

/-- Stable insertion of a scored ticker into a descending-sorted list: `x`
goes in front of the first strictly smaller score, after equal scores. -/
def insertDesc (x : Ticker × ℚ) : List (Ticker × ℚ) → List (Ticker × ℚ)
  | [] => [x]
  | y :: ys => if y.2 ≤ x.2 then x :: y :: ys else y :: insertDesc x ys

/-- Stable sort by score, descending — extensionally the behaviour of
Python's stable `sorted(positive_scored_stocks, key=..., reverse=True)`
(core/portfolio.py:100): ties keep their original relative order. -/
def sortDesc : List (Ticker × ℚ) → List (Ticker × ℚ)
  | [] => []
  | x :: xs => insertDesc x (sortDesc xs)

theorem insertDesc_perm (x : Ticker × ℚ) (l : List (Ticker × ℚ)) :
    (insertDesc x l).Perm (x :: l) := by
  induction l with
  | nil => exact List.Perm.refl _
  | cons y ys ih =>
      rw [insertDesc]
      by_cases h : y.2 ≤ x.2
      · rw [if_pos h]
      · rw [if_neg h]
        exact (List.Perm.cons y ih).trans (List.Perm.swap x y ys)

theorem sortDesc_perm (l : List (Ticker × ℚ)) : (sortDesc l).Perm l := by
  induction l with
  | nil => exact List.Perm.refl _
  | cons x xs ih =>
      exact (insertDesc_perm x (sortDesc xs)).trans (List.Perm.cons x ih)

/-- The target selection of `Portfolio.generate_rebalancing_orders`
(core/portfolio.py:96-101): filter to positive aggregated scores, sort
descending by score (stable), take the `top_n` names, and drop the tickers
already sold by a stop/take rule this day. -/
def rebTargets (aggregated_scores : List (Ticker × ℚ)) (top_n : ℕ)
    (sold : List Ticker) : List Ticker :=
  let positive := aggregated_scores.filter (fun ts => decide (0 < ts.2))
  (((sortDesc positive).map Prod.fst).take top_n).filter
    (fun t => decide (t ∉ sold))

/-- The SELL-`'ALL'` orders for held positions no longer in the target
portfolio (core/portfolio.py:110-117). -/
def rebSellOrders (ps : Positions) (target : List Ticker) : List Order :=
  ps.filterMap (fun tp : Ticker × Position =>
    if decide (0 < tp.2.shares) && decide (tp.1 ∉ target) then
      some ⟨.sell, tp.1, .all⟩
    else none)

/-- The buy/trim order for one target ticker (core/portfolio.py:120-146):
skip targets without a bar or with a non-positive close, size
`quantity = int((target_value − current_value)/price)`, BUY a positive
quantity, SELL `min(|quantity|, current_shares)` for a negative one. -/
def rebAlignOrder (latest : List (Ticker × Bar)) (ps : Positions) (tpv : ℚ)
    (t : Ticker) : Option Order :=
  match latest.lookup t with
  | none => none
  | some bar =>
      let current_shares := (getPos ps t).shares
      let price := bar.close
      if price ≤ 0 then none
      else
        let value_difference := tpv - (current_shares : ℚ) * price
        let quantity_to_trade : ℤ := ratTrunc (value_difference / price)
        if 0 < quantity_to_trade then some ⟨.buy, t, .num quantity_to_trade⟩
        else if quantity_to_trade < 0 then
          let quantity_to_sell := min (-quantity_to_trade) current_shares
          if 0 < quantity_to_sell then some ⟨.sell, t, .num quantity_to_sell⟩
          else none
        else none

/-- `Portfolio.generate_rebalancing_orders` (core/portfolio.py:92-148):
target selection, `update_value`, SELL-`'ALL'` orders for held non-targets,
then the per-target buy/trim orders. Returns the updated portfolio (the
method mutates `total_value`) together with the orders. -/
def generate_rebalancing_orders (dh : DataHandler) (p : Portfolio) (d : Nat)
    (aggregated_scores : List (Ticker × ℚ)) (top_n : ℕ) (sold : List Ticker) :
    Portfolio × List Order :=
  let target_portfolio := rebTargets aggregated_scores top_n sold
  let p1 := update_value dh p d
  let target_position_value : ℚ :=
    if 0 < top_n then p1.total_value / (top_n : ℚ) else 0
  let latest := get_latest_data dh d
  (p1, rebSellOrders p1.positions target_portfolio ++
    target_portfolio.filterMap
      (rebAlignOrder latest p1.positions target_position_value))

/-- The fill loop of `Backtest.run` (backtest.py:277-282, 328-332): execute
each order against the current positions and immediately apply any fill to
the portfolio, collecting the tickers of filled orders (the `sold_tickers`
set of the exit phase). -/
def applyOrders (dh : DataHandler) (cfg : ExecCfg) (d : Nat)
    (start : Portfolio × List Ticker) (orders : List Order) :
    Portfolio × List Ticker :=
  orders.foldl (fun acc order =>
    match execute_order dh cfg order d acc.1.positions with
    | none => acc
    | some fill =>
        (update_positions_from_fill acc.1 fill d, acc.2 ++ [fill.ticker]))
    start

/-- The full engine configuration consumed by the daily loop of
`Backtest.run`. The aggregated composite scores are abstracted as a per-day
table `scoreTable`: the daily loop consumes the rank-Z scores of
backtest.py:284-317 only through positivity filtering and descending
sorting, and their computation is modelled separately by
`normalizeScores`. -/
structure EngineCfg where
  dh : DataHandler
  ecfg : ExecCfg
  exitCfg : ExitCfg
  scoreTable : Nat → List (Ticker × ℚ)
  top_n : ℕ
  rebalancing_frequency : ℕ

/-- The loop state of `Backtest.run`: the portfolio, the
`days_since_last_rebalance` counter, the equity-curve assignments in order,
and one flag per processed day recording whether the rebalance block ran. -/
structure RunState where
  portfolio : Portfolio
  counter : ℕ
  equity : List (Nat × ℚ)
  rebalFlags : List Bool

/-- The trading block of a rebalance day (backtest.py:275-332): generate and
fill the exit orders, then generate and fill the rebalancing orders computed
from the day's aggregated scores and the set of exit-sold tickers. -/
def tradeBlock (ec : EngineCfg) (p0 : Portfolio) (d : Nat) : Portfolio :=
  let exit_orders := generate_exit_orders ec.dh p0 d ec.exitCfg
  let afterExit := applyOrders ec.dh ec.ecfg d (p0, []) exit_orders
  let reb := generate_rebalancing_orders ec.dh afterExit.1 d
    (ec.scoreTable d) ec.top_n afterExit.2
  (applyOrders ec.dh ec.ecfg d (reb.1, []) reb.2).1

/-- One iteration of the daily loop of `Backtest.run` (backtest.py:265-342):
mark-to-market and record equity first (lines 267-268, before any order);
then, only when `days_since_last_rebalance ≥ rebalancing_frequency`, run the
trading block and reset the counter to 1; otherwise increment the
counter. -/
def dayStep (ec : EngineCfg) (s : RunState) (d : Nat) : RunState :=
  let p0 := update_value ec.dh s.portfolio d
  let equity := s.equity ++ [(d, p0.total_value)]
  if ec.rebalancing_frequency ≤ s.counter then
    ⟨tradeBlock ec p0 d, 1, equity, s.rebalFlags ++ [true]⟩
  else
    ⟨p0, s.counter + 1, equity, s.rebalFlags ++ [false]⟩

/-- `Backtest.run` (backtest.py:237-342) over the trading days, starting
from a fresh portfolio with the configured initial cash and the cadence
counter initialized to `rebalancing_frequency` (line 262), so the very first
day rebalances. -/
def runBacktest (ec : EngineCfg) (days : List Nat) (initial_cash : ℚ) :
    RunState :=
  days.foldl (dayStep ec)
    ⟨⟨initial_cash, [], initial_cash, 0, []⟩, ec.rebalancing_frequency,
     [], []⟩

theorem dayStep_rebalFlags (ec : EngineCfg) (s : RunState) (d : Nat) :
    (dayStep ec s d).rebalFlags =
      s.rebalFlags ++ [decide (ec.rebalancing_frequency ≤ s.counter)] ∧
    (dayStep ec s d).counter =
      if ec.rebalancing_frequency ≤ s.counter then 1 else s.counter + 1 := by
  by_cases h : ec.rebalancing_frequency ≤ s.counter <;> simp [dayStep, h]

theorem foldl_flags (ec : EngineCfg) :
    ∀ (ds : List Nat) (s : RunState), 1 ≤ s.counter →
      s.counter ≤ ec.rebalancing_frequency →
      (ds.foldl (dayStep ec) s).rebalFlags =
        s.rebalFlags ++ (List.range ds.length).map
          (fun i => decide
            ((s.counter + i) % ec.rebalancing_frequency = 0)) := by
  intro ds
  induction ds with
  | nil =>
      intro s h1 h2
      simp
  | cons d rest ih =>
      intro s h1 h2
      rw [List.foldl_cons]
      obtain ⟨hfl, hct⟩ := dayStep_rebalFlags ec s d
      by_cases hc : ec.rebalancing_frequency ≤ s.counter
      · have hceq : s.counter = ec.rebalancing_frequency := le_antisymm h2 hc
        rw [ih (dayStep ec s d) (by rw [hct, if_pos hc])
          (by rw [hct, if_pos hc]; omega)]
        rw [hfl, hct, if_pos hc]
        rw [decide_eq_true hc]
        rw [List.length_cons, List.range_succ_eq_map, List.map_cons,
          List.map_map, List.append_assoc, List.singleton_append]
        congr 1
        congr 1
        · rw [hceq]
          simp [Nat.mod_self]
        · apply List.map_congr_left
          intro i _
          simp only [Function.comp_apply]
          have harith : (s.counter + Nat.succ i) % ec.rebalancing_frequency =
              (1 + i) % ec.rebalancing_frequency := by
            rw [hceq]
            have : ec.rebalancing_frequency + Nat.succ i =
                ec.rebalancing_frequency + (1 + i) := by omega
            rw [this]
            exact Nat.add_mod_left _ _
          rw [harith]
      · have hlt : s.counter < ec.rebalancing_frequency := lt_of_not_le hc
        rw [ih (dayStep ec s d) (by rw [hct, if_neg hc]; omega)
          (by rw [hct, if_neg hc]; omega)]
        rw [hfl, hct, if_neg hc]
        rw [decide_eq_false hc]
        rw [List.length_cons, List.range_succ_eq_map, List.map_cons,
          List.map_map, List.append_assoc, List.singleton_append]
        congr 1
        congr 1
        · have : s.counter % ec.rebalancing_frequency = s.counter :=
            Nat.mod_eq_of_lt hlt
          simp [this]
          omega
        · apply List.map_congr_left
          intro i _
          simp only [Function.comp_apply]
          have harith : (s.counter + Nat.succ i) % ec.rebalancing_frequency =
              (s.counter + 1 + i) % ec.rebalancing_frequency := by
            congr 1
            omega
          rw [harith]

/-- Claim C10: with rebalancing cadence `K ≥ 1`, the first trading day of a
run is always a rebalance day (the counter starts at `K` and the block runs
when `K ≤ counter`), the counter restarts at 1 after a rebalance day and
increments on other days, so day `i` (0-based) runs the rebalance block
exactly when `i` is a multiple of `K`. -/
theorem rebalance_cadence (ec : EngineCfg) (days : List Nat) (cash : ℚ)
    (hK : 1 ≤ ec.rebalancing_frequency) :
    (runBacktest ec days cash).rebalFlags =
      (List.range days.length).map
        (fun i => decide (i % ec.rebalancing_frequency = 0)) := by
  rw [runBacktest]
  rw [foldl_flags ec days _ hK (le_refl _)]
  simp only [List.nil_append]
  apply List.map_congr_left
  intro i _
  rw [Nat.add_mod_left]

/-- A minimal engine configuration (no data, no scores, cadence 2) used to
witness the cadence theorem on a concrete run. -/
def witnessEngine : EngineCfg :=
  ⟨⟨[], fun _ _ => none⟩, ⟨[], 0, 0⟩, ⟨none, none⟩, fun _ => [], 1, 2⟩

/-- Witness for C10: a three-day run at cadence 2 rebalances on days 0 and 2
only. -/
theorem rebalance_cadence_witness :
    (runBacktest witnessEngine [5, 6, 7] 100).rebalFlags =
      [true, false, true] :=
  (rebalance_cadence witnessEngine [5, 6, 7] 100 (by decide)).trans
    (by decide)

/-- One entry of the config's `strategies` list as read by
`Backtest.__init__` (backtest.py:178-186): the provider name and its
`enabled` flag (the `params` dict plays no role in the name lookup). -/
structure StratConfig where
  name : String
  enabled : Bool
deriving DecidableEq, Repr

/-- The strategy-loading loop of `Backtest.__init__` (backtest.py:177-186):
each enabled entry whose name is in `STRATEGY_MAPPING` (`known`) is
instantiated and appended; an unknown name only triggers a printed warning
and is skipped. The loop raises no exception, so setup always completes;
the result is the pair (loaded strategy names, warned-about unknown
names). -/
def initStrategies (known : List String) (cfgs : List StratConfig) :
    List String × List String :=
  cfgs.foldl (fun acc c =>
    if c.enabled then
      if c.name ∈ known then (acc.1 ++ [c.name], acc.2)
      else (acc.1, acc.2 ++ [c.name])
    else acc) ([], [])

theorem initStrategies_foldl (known : List String) :
    ∀ (cfgs : List StratConfig) (acc : List String × List String),
      cfgs.foldl (fun acc c =>
        if c.enabled then
          if c.name ∈ known then (acc.1 ++ [c.name], acc.2)
          else (acc.1, acc.2 ++ [c.name])
        else acc) acc =
      (acc.1 ++ (cfgs.filter
          (fun c => c.enabled && decide (c.name ∈ known))).map
            (fun c => c.name),
       acc.2 ++ (cfgs.filter
          (fun c => c.enabled && decide (c.name ∉ known))).map
            (fun c => c.name)) := by
  intro cfgs
  induction cfgs with
  | nil =>
      intro acc
      simp
  | cons c rest ih =>
      intro acc
      rw [List.foldl_cons]
      by_cases he : c.enabled <;> by_cases hk : c.name ∈ known <;>
        simp [he, hk, ih, List.append_assoc]

/-- Counterexample to claim C6 as stated: a configuration naming only the
unknown provider `"NoSuchStrategy"` does not abort setup — the loading loop
completes normally (it cannot raise), yielding zero loaded strategies and
one warning, and the simulation then proceeds (backtest.py:186 prints a
warning instead of raising an error). -/
theorem unknown_strategy_only_warns :
    initStrategies ["RsiStrategy", "MomentumStrategy"]
      [⟨"NoSuchStrategy", true⟩] = ([], ["NoSuchStrategy"]) := by decide

/-- Claim C6 (amended): an unknown enabled provider name never aborts setup:
the loading loop always completes, loading exactly the enabled names found
in the known mapping (in config order) and merely warning about — and
skipping — every enabled name that is not recognized. -/
theorem initStrategies_never_fails (known : List String)
    (cfgs : List StratConfig) :
    initStrategies known cfgs =
      ((cfgs.filter (fun c => c.enabled && decide (c.name ∈ known))).map
          (fun c => c.name),
       (cfgs.filter (fun c => c.enabled && decide (c.name ∉ known))).map
          (fun c => c.name)) := by
  rw [initStrategies, initStrategies_foldl]
  simp

/-- The portfolio of a run started with 500 cash and no positions. -/
def lowCashPortfolio : Portfolio := ⟨500, [], 500, 0, []⟩

/-- Claim C9: `update_positions_from_fill` applies every BUY fill
unconditionally — for every portfolio state, shares increase by the fill
quantity and cash decreases by `quantity × price` plus commission, with no
check against available cash — and consequently cash can go negative:
buying 10 shares at 100 with commission 1 out of 500 cash leaves
cash = −501. -/
theorem buy_fill_unconditional :
    (∀ (p : Portfolio) (t : Ticker) (q : ℤ) (pr c : ℚ) (d : Nat),
      (getPos (update_positions_from_fill p ⟨.buy, t, q, pr, c⟩ d).positions
          t).shares = (getPos p.positions t).shares + q ∧
      (update_positions_from_fill p ⟨.buy, t, q, pr, c⟩ d).cash =
        p.cash - (q : ℚ) * pr - c) ∧
    (update_positions_from_fill lowCashPortfolio
        ⟨.buy, "x", 10, 100, 1⟩ 0).cash < 0 := by
  constructor
  · intro p t q pr c d
    constructor
    · rw [update_buy, getPos_setPos_self]
    · rw [update_buy]
  · rw [update_buy]
    norm_num [lowCashPortfolio]

/-- Witness for C7 at a concrete round trip: buy 1 at 2 then 1 at 4, then
sell both at 5, commission 1 per trade, starting from 100 cash and a flat
book: the basis is `(2 + 4)/2` and the position resets. -/
theorem cost_basis_round_trip_witness :
    (getPos (update_positions_from_fill
        (update_positions_from_fill (⟨100, [], 100, 0, []⟩ : Portfolio)
          ⟨.buy, "a", 1, 2, 1⟩ 1)
        ⟨.buy, "a", 1, 4, 1⟩ 2).positions "a").purchase_price =
      (((1 : ℤ) : ℚ) * 2 + ((1 : ℤ) : ℚ) * 4) /
        (((1 : ℤ) : ℚ) + ((1 : ℤ) : ℚ)) ∧
    getPos (update_positions_from_fill (update_positions_from_fill
        (update_positions_from_fill (⟨100, [], 100, 0, []⟩ : Portfolio)
          ⟨.buy, "a", 1, 2, 1⟩ 1)
        ⟨.buy, "a", 1, 4, 1⟩ 2)
        ⟨.sell, "a", 1 + 1, 5, 1⟩ 3).positions "a" = Position.dflt :=
  ⟨(cost_basis_round_trip ⟨100, [], 100, 0, []⟩ "a" 1 1 2 4 5 1 1 1 1 2 3
      rfl (by decide) (by decide)).1,
   (cost_basis_round_trip ⟨100, [], 100, 0, []⟩ "a" 1 1 2 4 5 1 1 1 1 2 3
      rfl (by decide) (by decide)).2.2.2.2⟩

theorem dayStep_equity (ec : EngineCfg) (s : RunState) (d : Nat) :
    (dayStep ec s d).equity =
      s.equity ++ [(d, (update_value ec.dh s.portfolio d).total_value)] := by
  by_cases h : ec.rebalancing_frequency ≤ s.counter <;> simp [dayStep, h]

theorem foldl_equity_append (ec : EngineCfg) :
    ∀ (ds : List Nat) (s : RunState), ∃ l,
      (ds.foldl (dayStep ec) s).equity = s.equity ++ l := by
  intro ds
  induction ds with
  | nil =>
      intro s
      exact ⟨[], by simp⟩
  | cons d rest ih =>
      intro s
      obtain ⟨l, hl⟩ := ih (dayStep ec s d)
      rw [List.foldl_cons]
      refine ⟨[(d, (update_value ec.dh s.portfolio d).total_value)] ++ l, ?_⟩
      rw [hl, dayStep_equity, List.append_assoc]

theorem foldl_equity_length (ec : EngineCfg) :
    ∀ (ds : List Nat) (s : RunState),
      (ds.foldl (dayStep ec) s).equity.length =
        s.equity.length + ds.length := by
  intro ds
  induction ds with
  | nil =>
      intro s
      simp
  | cons d rest ih =>
      intro s
      rw [List.foldl_cons, ih]
      rw [dayStep_equity]
      simp
      omega

/-- Claim C5 (amended): the equity value recorded in the equity curve for a
trading day equals the portfolio's total value as marked to market at the
START of that day, BEFORE that day's exit and rebalancing fills are applied
— the assignment happens at backtest.py:267-268, ahead of the conditional
rebalance block, so a day's fills are not reflected in that day's equity
entry. -/
theorem equity_recorded_before_fills (ec : EngineCfg) (cash : ℚ)
    (pfx : List Nat) (d : Nat) (rest : List Nat) :
    (runBacktest ec (pfx ++ d :: rest) cash).equity[pfx.length]? =
      some (d, (update_value ec.dh
        (runBacktest ec pfx cash).portfolio d).total_value) := by
  rw [runBacktest, List.foldl_append, List.foldl_cons]
  obtain ⟨l, hl⟩ := foldl_equity_append ec rest
    (dayStep ec (runBacktest ec pfx cash) d)
  rw [show (List.foldl (dayStep ec)
      ⟨⟨cash, [], cash, 0, []⟩, ec.rebalancing_frequency, [], []⟩ pfx) =
      runBacktest ec pfx cash from rfl]
  rw [hl, dayStep_equity]
  have hlen : (runBacktest ec pfx cash).equity.length = pfx.length := by
    rw [runBacktest, foldl_equity_length]
    simp
  rw [← hlen, List.append_assoc, List.getElem?_append_right (le_refl _)]
  simp

/-- One traded ticker `"aaa"` with constant unit bars on days 0 and 1. -/
def oneTickerBars (t : Ticker) (d : Nat) : Option Bar :=
  if t = "aaa" ∧ (d = 0 ∨ d = 1) then some ⟨1, 1, 1⟩ else none

/-- A one-ticker engine: calendar `[0, 1]`, commission 1, no slippage, no
exit rules, a positive score for `"aaa"` on day 0 only, `top_n = 1`, daily
rebalancing. -/
def oneTickerEngine : EngineCfg :=
  ⟨⟨["aaa"], oneTickerBars⟩, ⟨[0, 1], 1, 0⟩, ⟨none, none⟩,
   fun d => if d = 0 then [("aaa", 1)] else [], 1, 1⟩

/-- The portfolio state before any fill: 10 cash, no positions. -/
def pZero : Portfolio := ⟨10, [], 10, 0, []⟩

/-- The portfolio state after day 0's BUY fill of 10 shares at price 1 with
commission 1: cash −1, 10 shares at basis 1 (stale `total_value` 10). -/
def pBought : Portfolio := ⟨-1, [("aaa", ⟨10, 1, some 0⟩)], 10, 0, []⟩

theorem oneTicker_update_pZero :
    update_value oneTickerEngine.dh pZero 0 = pZero := by
  simp [update_value, pZero]

theorem oneTicker_reb :
    generate_rebalancing_orders oneTickerEngine.dh pZero 0
      (oneTickerEngine.scoreTable 0) 1 [] =
    (pZero, [⟨.buy, "aaa", .num 10⟩]) := by
  simp only [generate_rebalancing_orders]
  rw [oneTicker_update_pZero]
  simp [oneTickerEngine, sortDesc, insertDesc, pZero, get_latest_data,
    oneTickerBars, getPos, Position.dflt, ratTrunc, rebTargets,
    rebSellOrders, rebAlignOrder,
    show Int.tdiv (10 : ℤ) 1 = 10 from by decide]

theorem oneTicker_fill :
    execute_order oneTickerEngine.dh oneTickerEngine.ecfg
      ⟨.buy, "aaa", .num 10⟩ 0 pZero.positions =
    some ⟨.buy, "aaa", 10, 1, 1⟩ := by
  have hnext : nextTradingDay oneTickerEngine.ecfg.trading_days 0 =
      some 1 := rfl
  rw [execute_order, hnext]
  simp only [fillAtDay]
  simp [oneTickerEngine, get_latest_data, oneTickerBars, typicalPrice]
  norm_num

theorem oneTicker_apply :
    applyOrders oneTickerEngine.dh oneTickerEngine.ecfg 0 (pZero, [])
      [⟨.buy, "aaa", .num 10⟩] = (pBought, ["aaa"]) := by
  rw [applyOrders, List.foldl_cons, List.foldl_nil, oneTicker_fill]
  simp only [update_buy]
  simp [pZero, pBought, getPos, setPos, Position.dflt]

theorem oneTicker_run :
    runBacktest oneTickerEngine [0] 10 = ⟨pBought, 1, [(0, 10)], [true]⟩ := by
  rw [runBacktest, List.foldl_cons, List.foldl_nil]
  simp only [dayStep, tradeBlock]
  rw [show (⟨10, [], 10, 0, []⟩ : Portfolio) = pZero from rfl,
    oneTicker_update_pZero]
  rw [if_pos (le_refl oneTickerEngine.rebalancing_frequency)]
  rw [show generate_exit_orders oneTickerEngine.dh pZero 0
      oneTickerEngine.exitCfg = [] from rfl]
  rw [show applyOrders oneTickerEngine.dh oneTickerEngine.ecfg 0 (pZero, [])
      [] = (pZero, []) from rfl]
  dsimp only
  rw [show oneTickerEngine.top_n = 1 from rfl]
  rw [oneTicker_reb]
  dsimp only
  rw [oneTicker_apply]
  simp [pZero]

/-- Counterexample to claim C5 as stated: on day 0 of the one-ticker run,
the equity curve records 10 (the mark-to-market value BEFORE the day's
fills), while the portfolio's total value after the day's BUY fill (10
shares at 1, commission 1) marks to 9 — the recorded equity is not the
after-fill value. -/
theorem equity_differs_from_post_fill_value :
    (runBacktest oneTickerEngine [0] 10).equity = [(0, 10)] ∧
    (update_value oneTickerEngine.dh
        (runBacktest oneTickerEngine [0] 10).portfolio 0).total_value = 9 ∧
    (runBacktest oneTickerEngine [0] 10).equity ≠
      [(0, (update_value oneTickerEngine.dh
        (runBacktest oneTickerEngine [0] 10).portfolio 0).total_value)] := by
  have hval : (update_value oneTickerEngine.dh pBought 0).total_value = 9 := by
    simp [update_value, get_latest_data, oneTickerEngine, oneTickerBars,
      pBought]
    norm_num
  rw [oneTicker_run]
  refine ⟨rfl, hval, ?_⟩
  rw [show (⟨pBought, 1, [(0, 10)], [true]⟩ : RunState).portfolio =
    pBought from rfl, hval]
  intro hcontra
  simp at hcontra

/-- All share counts in a positions map are non-negative. -/
def NonnegShares (ps : Positions) : Prop :=
  ∀ t, 0 ≤ (getPos ps t).shares

theorem setPos_keys (ps : Positions) (t : Ticker) (v : Position) :
    (setPos ps t v).map Prod.fst =
      if t ∈ ps.map Prod.fst then ps.map Prod.fst
      else ps.map Prod.fst ++ [t] := by
  induction ps with
  | nil => simp [setPos]
  | cons hd tl ih =>
      obtain ⟨u, w⟩ := hd
      by_cases h : u = t
      · subst h
        simp [setPos]
      · simp only [setPos, if_neg h, List.map_cons]
        rw [ih]
        by_cases hm : t ∈ tl.map Prod.fst
        · rw [if_pos hm, if_pos (by simp [hm])]
        · rw [if_neg hm, if_neg (by simp [hm, Ne.symm h])]
          simp

theorem setPos_keys_nodup (ps : Positions) (t : Ticker) (v : Position)
    (h : (ps.map Prod.fst).Nodup) :
    ((setPos ps t v).map Prod.fst).Nodup := by
  rw [setPos_keys]
  by_cases hm : t ∈ ps.map Prod.fst
  · rw [if_pos hm]
    exact h
  · rw [if_neg hm]
    simp [List.nodup_append, h, hm]

theorem update_fill_exists_setPos (p : Portfolio) (f : Fill) (d : Nat) :
    ∃ v, (update_positions_from_fill p f d).positions =
      setPos p.positions f.ticker v := by
  obtain ⟨side, tk, q, pr, c⟩ := f
  cases side
  · exact ⟨_, by rw [update_buy]⟩
  · exact ⟨_, by rw [update_sell]⟩

theorem update_fill_other (p : Portfolio) (f : Fill) (d : Nat) (t : Ticker)
    (h : t ≠ f.ticker) :
    getPos (update_positions_from_fill p f d).positions t =
      getPos p.positions t := by
  obtain ⟨v, hv⟩ := update_fill_exists_setPos p f d
  rw [hv, getPos_setPos_ne _ _ _ _ h]

theorem update_fill_keys_nodup (p : Portfolio) (f : Fill) (d : Nat)
    (h : (p.positions.map Prod.fst).Nodup) :
    ((update_positions_from_fill p f d).positions.map Prod.fst).Nodup := by
  obtain ⟨v, hv⟩ := update_fill_exists_setPos p f d
  rw [hv]
  exact setPos_keys_nodup _ _ _ h

theorem execute_order_some (dh : DataHandler) (cfg : ExecCfg) (order : Order)
    (d : Nat) (ps : Positions) (f : Fill)
    (h : execute_order dh cfg order d ps = some f) :
    f.side = order.side ∧ f.ticker = order.ticker ∧ 0 < f.quantity ∧
    (order.qty = .all → f.quantity = (getPos ps order.ticker).shares) ∧
    (∀ n, order.qty = .num n → f.quantity = n) := by
  obtain ⟨oside, otk, oqty⟩ := order
  rw [execute_order] at h
  rcases hnext : nextTradingDay cfg.trading_days d with _ | ed <;>
    rw [hnext] at h <;> dsimp only at h
  · exact absurd h (by simp)
  rw [fillAtDay.eq_def] at h
  rcases hbar : (get_latest_data dh ed).lookup otk with _ | bar <;>
    rw [hbar] at h <;> dsimp only at h
  · exact absurd h (by simp)
  by_cases hzero : typicalPrice bar = 0
  · rw [if_pos hzero] at h
    exact absurd h (by simp)
  rw [if_neg hzero] at h
  cases oqty with
  | all =>
      dsimp only at h
      by_cases hq : (getPos ps otk).shares ≤ 0
      · rw [if_pos hq] at h
        exact absurd h (by simp)
      · rw [if_neg hq] at h
        injection h with h'
        subst h'
        refine ⟨rfl, rfl, ?_, fun _ => rfl, ?_⟩
        · show 0 < (getPos ps otk).shares
          omega
        · intro n hn
          exact absurd hn (by simp)
  | num m =>
      dsimp only at h
      by_cases hq : m ≤ 0
      · rw [if_pos hq] at h
        exact absurd h (by simp)
      · rw [if_neg hq] at h
        injection h with h'
        subst h'
        refine ⟨rfl, rfl, ?_, ?_, ?_⟩
        · show 0 < m
          omega
        · intro hall
          exact absurd hall (by simp)
        · intro n hn
          cases hn
          rfl

/-- An order is safe for a positions map when a fixed-quantity SELL does not
exceed the currently held shares; sentinel-`'ALL'` orders and BUY orders need
no bound. -/
def OrderSafe (ps : Positions) (o : Order) : Prop :=
  ∀ n, o.qty = .num n → o.side = .sell → n ≤ (getPos ps o.ticker).shares

theorem fill_preserves_nonneg (dh : DataHandler) (cfg : ExecCfg)
    (p : Portfolio) (o : Order) (f : Fill) (d : Nat)
    (hexec : execute_order dh cfg o d p.positions = some f)
    (hnn : NonnegShares p.positions) (hsafe : OrderSafe p.positions o) :
    NonnegShares (update_positions_from_fill p f d).positions := by
  obtain ⟨hside, htk, hqpos, hall, hnum⟩ :=
    execute_order_some dh cfg o d p.positions f hexec
  intro t
  by_cases ht : t = f.ticker
  · subst ht
    obtain ⟨fside, ftk, fq, fpr, fc⟩ := f
    dsimp only at hside htk hqpos hall hnum ⊢
    cases fside with
    | buy =>
        rw [update_buy, getPos_setPos_self]
        have h0 := hnn ftk
        dsimp only
        omega
    | sell =>
        rw [update_sell]
        by_cases hclose : (getPos p.positions ftk).shares - fq = 0
        · rw [if_pos hclose, getPos_setPos_self]
        · rw [if_neg hclose, getPos_setPos_self]
          dsimp only
          rcases hq : o.qty with _ | n
          · have hfq := hall hq
            rw [htk] at hclose ⊢
            omega
          · have hfq := hnum n hq
            have hb := hsafe n hq hside.symm
            rw [htk]
            omega
  · rw [update_fill_other _ _ _ _ ht]
    exact hnn t

theorem applyOrders_cons (dh : DataHandler) (cfg : ExecCfg) (d : Nat)
    (p : Portfolio) (acc : List Ticker) (o : Order) (rest : List Order) :
    applyOrders dh cfg d (p, acc) (o :: rest) =
      applyOrders dh cfg d
        (match execute_order dh cfg o d p.positions with
         | none => (p, acc)
         | some fill =>
             (update_positions_from_fill p fill d, acc ++ [fill.ticker]))
        rest := rfl

theorem applyOrders_preserves (dh : DataHandler) (cfg : ExecCfg) (d : Nat) :
    ∀ (orders : List Order) (p : Portfolio) (acc : List Ticker),
      NonnegShares p.positions →
      (p.positions.map Prod.fst).Nodup →
      (∀ o ∈ orders, OrderSafe p.positions o) →
      ((orders.map Order.ticker).Nodup) →
      NonnegShares (applyOrders dh cfg d (p, acc) orders).1.positions ∧
      ((applyOrders dh cfg d (p, acc) orders).1.positions.map
        Prod.fst).Nodup := by
  intro orders
  induction orders with
  | nil =>
      intro p acc hnn hkeys _ _
      exact ⟨hnn, hkeys⟩
  | cons o rest ih =>
      intro p acc hnn hkeys hsafe hnodup
      rw [List.map_cons, List.nodup_cons] at hnodup
      obtain ⟨hhead, htail⟩ := hnodup
      rw [applyOrders_cons]
      rcases hexec : execute_order dh cfg o d p.positions with _ | fill
      · exact ih p acc hnn hkeys
          (fun o' ho' => hsafe o' (List.mem_cons_of_mem _ ho')) htail
      · obtain ⟨hside, htk, hqpos, hall, hnum⟩ :=
          execute_order_some dh cfg o d p.positions fill hexec
        have hnn' := fill_preserves_nonneg dh cfg p o fill d hexec hnn
          (hsafe o (List.mem_cons_self _ _))
        have hkeys' := update_fill_keys_nodup p fill d hkeys
        have hsafe' : ∀ o' ∈ rest,
            OrderSafe (update_positions_from_fill p fill d).positions o' := by
          intro o' ho' n hn hs
          have hne : o'.ticker ≠ fill.ticker := by
            rw [htk]
            intro hcontra
            exact hhead (hcontra ▸ List.mem_map_of_mem Order.ticker ho')
          rw [update_fill_other _ _ _ _ hne]
          exact hsafe o' (List.mem_cons_of_mem _ ho') n hn hs
        exact ih _ _ hnn' hkeys' hsafe' htail

theorem filterMap_order_subset {α : Type} (l : List α) (key : α → Ticker)
    (g : α → Option Order)
    (hkey : ∀ a o, g a = some o → o.ticker = key a) :
    ∀ x ∈ (l.filterMap g).map Order.ticker, x ∈ l.map key := by
  intro x hx
  rw [List.mem_map] at hx
  obtain ⟨o, ho, hxo⟩ := hx
  rw [List.mem_filterMap] at ho
  obtain ⟨a, ha, hga⟩ := ho
  rw [← hxo, hkey a o hga]
  exact List.mem_map_of_mem key ha

theorem filterMap_order_nodup {α : Type} (key : α → Ticker)
    (g : α → Option Order)
    (hkey : ∀ a o, g a = some o → o.ticker = key a) :
    ∀ l : List α, (l.map key).Nodup →
      ((l.filterMap g).map Order.ticker).Nodup := by
  intro l
  induction l with
  | nil =>
      intro _
      simp
  | cons a tl ih =>
      intro h
      rw [List.map_cons, List.nodup_cons] at h
      obtain ⟨hna, htl⟩ := h
      rw [List.filterMap_cons]
      rcases hg : g a with _ | o
      · exact ih htl
      · rw [List.map_cons, List.nodup_cons]
        refine ⟨?_, ih htl⟩
        intro hmem
        have hsub := filterMap_order_subset tl key g hkey o.ticker hmem
        rw [hkey a o hg] at hsub
        exact hna hsub

theorem generate_exit_orders_spec (dh : DataHandler) (p : Portfolio) (d : Nat)
    (ecfg : ExitCfg) (hkeys : (p.positions.map Prod.fst).Nodup) :
    (∀ o ∈ generate_exit_orders dh p d ecfg, o.qty = .all) ∧
    ((generate_exit_orders dh p d ecfg).map Order.ticker).Nodup := by
  constructor
  · intro o ho
    rw [generate_exit_orders, List.mem_filterMap] at ho
    obtain ⟨a, _, hg⟩ := ho
    dsimp only at hg
    split at hg
    · exact absurd hg (by simp)
    · split at hg
      · exact absurd hg (by simp)
      · split at hg
        · injection hg with h
          subst h
          rfl
        · split at hg
          · injection hg with h
            subst h
            rfl
          · exact absurd hg (by simp)
  · rw [generate_exit_orders]
    refine filterMap_order_nodup Prod.fst _ ?_ p.positions hkeys
    intro a o hg
    dsimp only at hg
    split at hg
    · exact absurd hg (by simp)
    · split at hg
      · exact absurd hg (by simp)
      · split at hg
        · injection hg with h
          subst h
          rfl
        · split at hg
          · injection hg with h
            subst h
            rfl
          · exact absurd hg (by simp)

theorem rebTargets_nodup (scores : List (Ticker × ℚ)) (top_n : ℕ)
    (sold : List Ticker) (hscores : (scores.map Prod.fst).Nodup) :
    (rebTargets scores top_n sold).Nodup := by
  rw [rebTargets]
  apply List.Nodup.filter
  apply List.Nodup.sublist (List.take_sublist _ _)
  have hpos : ((scores.filter (fun ts => decide (0 < ts.2))).map
      Prod.fst).Nodup :=
    List.Nodup.sublist ((List.filter_sublist _).map _) hscores
  exact (List.Perm.nodup_iff
    ((sortDesc_perm _).map Prod.fst)).mpr hpos

theorem rebSellOrders_shape (target : List Ticker)
    (tp : Ticker × Position) (o : Order)
    (h : (if decide (0 < tp.2.shares) && decide (tp.1 ∉ target) then
        some (⟨.sell, tp.1, .all⟩ : Order) else none) = some o) :
    o = ⟨.sell, tp.1, .all⟩ ∧ tp.1 ∉ target := by
  split at h
  · injection h with h'
    refine ⟨h'.symm, ?_⟩
    rename_i hcond
    simp only [Bool.and_eq_true, decide_eq_true_eq] at hcond
    exact hcond.2
  · exact absurd h (by simp)

theorem rebSellOrders_spec (ps : Positions) (target : List Ticker) :
    ∀ o ∈ rebSellOrders ps target, o.qty = .all ∧ o.ticker ∉ target := by
  intro o ho
  rw [rebSellOrders, List.mem_filterMap] at ho
  obtain ⟨a, _, hg⟩ := ho
  obtain ⟨ho', hnt⟩ := rebSellOrders_shape target a o hg
  rw [ho']
  exact ⟨rfl, hnt⟩

theorem rebSellOrders_nodup (ps : Positions) (target : List Ticker)
    (hkeys : (ps.map Prod.fst).Nodup) :
    ((rebSellOrders ps target).map Order.ticker).Nodup := by
  rw [rebSellOrders]
  refine filterMap_order_nodup Prod.fst _ ?_ ps hkeys
  intro a o hg
  obtain ⟨ho, _⟩ := rebSellOrders_shape target a o hg
  rw [ho]

theorem rebAlignOrder_shape (latest : List (Ticker × Bar)) (ps : Positions)
    (tpv : ℚ) (t : Ticker) (o : Order)
    (h : rebAlignOrder latest ps tpv t = some o) :
    o.ticker = t ∧ OrderSafe ps o := by
  rw [rebAlignOrder.eq_def] at h
  split at h
  · exact absurd h (by simp)
  · dsimp only at h
    split at h
    · exact absurd h (by simp)
    · split at h
      · injection h with h'
        subst h'
        refine ⟨rfl, ?_⟩
        intro n _ hs
        exact absurd hs (by simp)
      · split at h
        · split at h
          · injection h with h'
            subst h'
            refine ⟨rfl, ?_⟩
            intro n hn _
            cases hn
            exact min_le_right _ _
          · exact absurd h (by simp)
        · exact absurd h (by simp)

theorem rebAlign_nodup (latest : List (Ticker × Bar)) (ps : Positions)
    (tpv : ℚ) (target : List Ticker) (htn : target.Nodup) :
    ((target.filterMap (rebAlignOrder latest ps tpv)).map
      Order.ticker).Nodup := by
  refine filterMap_order_nodup id _ ?_ target (by simpa using htn)
  intro a o hg
  exact (rebAlignOrder_shape latest ps tpv a o hg).1

theorem generate_rebalancing_orders_spec (dh : DataHandler) (p : Portfolio)
    (d : Nat) (scores : List (Ticker × ℚ)) (top_n : ℕ) (sold : List Ticker)
    (hkeys : (p.positions.map Prod.fst).Nodup)
    (hscores : (scores.map Prod.fst).Nodup) :
    (generate_rebalancing_orders dh p d scores top_n sold).1.positions =
      p.positions ∧
    (∀ o ∈ (generate_rebalancing_orders dh p d scores top_n sold).2,
      OrderSafe p.positions o) ∧
    ((generate_rebalancing_orders dh p d scores top_n sold).2.map
      Order.ticker).Nodup := by
  have h2 : (generate_rebalancing_orders dh p d scores top_n sold).2 =
      rebSellOrders p.positions (rebTargets scores top_n sold) ++
        (rebTargets scores top_n sold).filterMap
          (rebAlignOrder (get_latest_data dh d) p.positions
            (if 0 < top_n then
              (update_value dh p d).total_value / (top_n : ℚ)
             else 0)) := rfl
  refine ⟨rfl, ?_, ?_⟩
  · intro o ho
    rw [h2, List.mem_append] at ho
    rcases ho with ho | ho
    · obtain ⟨hall, _⟩ := rebSellOrders_spec _ _ o ho
      intro n hn _
      rw [hall] at hn
      exact absurd hn (by simp)
    · rw [List.mem_filterMap] at ho
      obtain ⟨a, _, hg⟩ := ho
      exact (rebAlignOrder_shape _ _ _ a o hg).2
  · rw [h2, List.map_append]
    refine List.Nodup.append ?_ ?_ ?_
    · exact rebSellOrders_nodup _ _ hkeys
    · exact rebAlign_nodup _ _ _ _ (rebTargets_nodup scores top_n sold
        hscores)
    · intro x hx1 hx2
      rw [List.mem_map] at hx1
      obtain ⟨o, ho, hxo⟩ := hx1
      obtain ⟨_, hnt⟩ := rebSellOrders_spec _ _ o ho
      have hsub := filterMap_order_subset (rebTargets scores top_n sold) id _
        (fun a o hg => (rebAlignOrder_shape _ _ _ a o hg).1) x hx2
      rw [List.map_id] at hsub
      rw [← hxo] at hsub
      exact hnt hsub

theorem tradeBlock_preserves (ec : EngineCfg) (p0 : Portfolio) (d : Nat)
    (hscores : ((ec.scoreTable d).map Prod.fst).Nodup)
    (hnn : NonnegShares p0.positions)
    (hkeys : (p0.positions.map Prod.fst).Nodup) :
    NonnegShares (tradeBlock ec p0 d).positions ∧
    ((tradeBlock ec p0 d).positions.map Prod.fst).Nodup := by
  obtain ⟨hexall, hexnodup⟩ :=
    generate_exit_orders_spec ec.dh p0 d ec.exitCfg hkeys
  have hexit := applyOrders_preserves ec.dh ec.ecfg d
    (generate_exit_orders ec.dh p0 d ec.exitCfg) p0 [] hnn hkeys
    (by
      intro o ho n hn _
      rw [hexall o ho] at hn
      exact absurd hn (by simp))
    hexnodup
  set EX := applyOrders ec.dh ec.ecfg d (p0, [])
    (generate_exit_orders ec.dh p0 d ec.exitCfg) with hEX
  obtain ⟨hps, hsafeReb, hnodupReb⟩ := generate_rebalancing_orders_spec ec.dh
    EX.1 d (ec.scoreTable d) ec.top_n EX.2 hexit.2 hscores
  set REB := generate_rebalancing_orders ec.dh EX.1 d (ec.scoreTable d)
    ec.top_n EX.2 with hREB
  have hfinal := applyOrders_preserves ec.dh ec.ecfg d REB.2 REB.1 []
    (fun t => by rw [hps]; exact hexit.1 t)
    (by rw [hps]; exact hexit.2)
    (fun o ho n hn hs => by rw [hps]; exact hsafeReb o ho n hn hs)
    hnodupReb
  have htb : tradeBlock ec p0 d =
      (applyOrders ec.dh ec.ecfg d (REB.1, []) REB.2).1 := rfl
  rw [htb]
  exact hfinal

theorem dayStep_portfolio (ec : EngineCfg) (s : RunState) (d : Nat) :
    (dayStep ec s d).portfolio =
      if ec.rebalancing_frequency ≤ s.counter then
        tradeBlock ec (update_value ec.dh s.portfolio d) d
      else update_value ec.dh s.portfolio d := by
  by_cases h : ec.rebalancing_frequency ≤ s.counter <;> simp [dayStep, h]

theorem runBacktest_nonneg (ec : EngineCfg) (days : List Nat) (cash : ℚ)
    (hscores : ∀ d, ((ec.scoreTable d).map Prod.fst).Nodup) :
    NonnegShares (runBacktest ec days cash).portfolio.positions ∧
    ((runBacktest ec days cash).portfolio.positions.map Prod.fst).Nodup := by
  have main : ∀ (ds : List Nat) (s : RunState),
      NonnegShares s.portfolio.positions →
      (s.portfolio.positions.map Prod.fst).Nodup →
      NonnegShares (ds.foldl (dayStep ec) s).portfolio.positions ∧
      ((ds.foldl (dayStep ec) s).portfolio.positions.map Prod.fst).Nodup := by
    intro ds
    induction ds with
    | nil =>
        intro s h1 h2
        exact ⟨h1, h2⟩
    | cons dd rest ih =>
        intro s h1 h2
        rw [List.foldl_cons]
        have hupv : (update_value ec.dh s.portfolio dd).positions =
            s.portfolio.positions := rfl
        have hstep : NonnegShares (dayStep ec s dd).portfolio.positions ∧
            ((dayStep ec s dd).portfolio.positions.map Prod.fst).Nodup := by
          rw [dayStep_portfolio]
          by_cases hc : ec.rebalancing_frequency ≤ s.counter
          · rw [if_pos hc]
            refine tradeBlock_preserves ec _ dd (hscores dd) ?_ ?_
            · intro t
              rw [hupv]
              exact h1 t
            · rw [hupv]
              exact h2
          · rw [if_neg hc, hupv]
            exact ⟨h1, h2⟩
        exact ih _ hstep.1 hstep.2
  rw [runBacktest]
  exact main days _ (fun t => le_refl 0) (by simp)

/-- Claim C8: in every state reachable by a simulation run, share counts are
non-negative: every fill produced by `execute_order` has positive quantity
and a sentinel-`'ALL'` order's fill quantity is resolved to the instrument's
current share count at fill time, exit and non-target sells are `'ALL'`
orders, rebalancing trims sell at most `min(|quantity|, current_shares)`,
and so every position's shares stay `≥ 0` throughout the run (for any day
list, hence at every intermediate state). The score-key hypothesis mirrors
that the aggregated-score dict has one entry per ticker. -/
theorem shares_never_negative (ec : EngineCfg) (days : List Nat) (cash : ℚ)
    (hscores : ∀ d, ((ec.scoreTable d).map Prod.fst).Nodup) :
    (∀ (o : Order) (d : Nat) (ps : Positions) (f : Fill),
        execute_order ec.dh ec.ecfg o d ps = some f →
        0 < f.quantity ∧
        (o.qty = .all → f.quantity = (getPos ps o.ticker).shares)) ∧
    ∀ t, 0 ≤ (getPos (runBacktest ec days cash).portfolio.positions
        t).shares := by
  constructor
  · intro o d ps f h
    obtain ⟨_, _, hq, hall, _⟩ := execute_order_some ec.dh ec.ecfg o d ps f h
    exact ⟨hq, hall⟩
  · exact (runBacktest_nonneg ec days cash hscores).1

/-- Witness for C8 on the concrete one-ticker engine over its two calendar
days: the run buys and the share count stays non-negative. -/
theorem shares_never_negative_witness :
    0 ≤ (getPos (runBacktest oneTickerEngine [0, 1] 10).portfolio.positions
        "aaa").shares :=
  (shares_never_negative oneTickerEngine [0, 1] 10
    (fun d => by by_cases h : d = 0 <;> simp [oneTickerEngine, h])).2 "aaa"

/-- Claim C1: for every order generated on day `D`, `execute_order` either
returns `none` or consults the bar of the smallest calendar date strictly
greater than `D`; the fill never uses day `D` itself, and when no calendar
date after `D` exists the result is `none` (the order expires). -/
theorem execute_order_no_lookahead (dh : DataHandler) (cfg : ExecCfg)
    (order : Order) (D : Nat) (ps : Positions)
    (hsorted : cfg.trading_days.Sorted (· < ·)) :
    (nextTradingDay cfg.trading_days D = none →
      (∀ x ∈ cfg.trading_days, x ≤ D) ∧
      execute_order dh cfg order D ps = none) ∧
    (∀ ed, nextTradingDay cfg.trading_days D = some ed →
      ed ∈ cfg.trading_days ∧ D < ed ∧
      (∀ x ∈ cfg.trading_days, D < x → ed ≤ x) ∧
      execute_order dh cfg order D ps = fillAtDay dh cfg order ed ps) := by
  obtain ⟨h1, h2⟩ := nextTradingDay_spec cfg.trading_days D hsorted
  constructor
  · intro hnone
    refine ⟨h1 hnone, ?_⟩
    rw [execute_order, hnone]
  · intro ed hed
    obtain ⟨hmem, hlt, hmin⟩ := h2 ed hed
    refine ⟨hmem, hlt, hmin, ?_⟩
    rw [execute_order, hed]

/-- Witness for C1 at a concrete calendar `[0, 2, 3]` and order day `1`: the
next trading day is `2`, and the conclusion of the theorem holds there. -/
theorem execute_order_no_lookahead_witness :
    (nextTradingDay [0, 2, 3] 1 = none →
      (∀ x ∈ [0, 2, 3], x ≤ 1) ∧
      execute_order ⟨[], fun _ _ => none⟩ ⟨[0, 2, 3], 1, 0⟩
        ⟨.buy, "a", .all⟩ 1 [] = none) ∧
    (∀ ed, nextTradingDay [0, 2, 3] 1 = some ed →
      ed ∈ [0, 2, 3] ∧ 1 < ed ∧
      (∀ x ∈ [0, 2, 3], 1 < x → ed ≤ x) ∧
      execute_order ⟨[], fun _ _ => none⟩ ⟨[0, 2, 3], 1, 0⟩
        ⟨.buy, "a", .all⟩ 1 [] =
        fillAtDay ⟨[], fun _ _ => none⟩ ⟨[0, 2, 3], 1, 0⟩
          ⟨.buy, "a", .all⟩ ed []) :=
  execute_order_no_lookahead ⟨[], fun _ _ => none⟩ ⟨[0, 2, 3], 1, 0⟩
    ⟨.buy, "a", .all⟩ 1 []
    (by simp [List.sorted_cons])

end V1Engine
